import Mathlib

/-!
Verification of the worktree lifecycle orchestrator of the `gwt` command-line
tool (a convenience wrapper around `git worktree`), against its
natural-language specification.

The development shallowly embeds the relevant Go functions:

* the path derivation and argument rewriting of `git worktree add`
  (`branchToDir`, `buildAddArgs`, `Repo.Add` in `git.go`),
* the post-checkout hook generator and installer (`hook.go`),
* the configuration store (`config.go`),
* the exit-code mapping (`ExitCode`) and the copy-file traversal guard
  (`CopyFileToWorktree`).

Paths are modelled at the character-list level, with faithful functional
renderings of Go `path/filepath` lexical processing (`Clean`, `Join`, `Abs`,
`Dir`) for the Unix separator. File systems are modelled as explicit state
values, and process execution as the data of the argument vector that would
be handed to the external `git` binary.
-/

/-! ## Character-list utilities (models of Go `strings` helpers) -/

/-- Boolean test that the first list is a leading segment of the second
(model of Go `strings.HasPrefix` at the character level). -/
def leadsWith : List Char → List Char → Bool
  | [], _ => true
  | _ :: _, [] => false
  | a :: as, b :: bs => a = b && leadsWith as bs

/-- Boolean substring test (model of Go `strings.Contains` at the
character level). -/
def hasSub (pat : List Char) : List Char → Bool
  | [] => pat.isEmpty
  | c :: rest => leadsWith pat (c :: rest) || hasSub pat rest

theorem leadsWith_le_length (p l : List Char) (h : leadsWith p l = true) :
    p.length ≤ l.length := by
  induction p generalizing l with
  | nil => simp
  | cons a as ih =>
    cases l with
    | nil => simp [leadsWith] at h
    | cons b bs =>
      simp only [leadsWith, Bool.and_eq_true] at h
      simpa using ih bs h.2

theorem leadsWith_append (p m : List Char) : leadsWith p (p ++ m) = true := by
  induction p with
  | nil => rfl
  | cons a as ih => simp [leadsWith, ih]

theorem hasSub_of_append_right (pat l m : List Char) (h : hasSub pat m = true) :
    hasSub pat (l ++ m) = true := by
  induction l with
  | nil => simpa using h
  | cons c cs ih => simp [hasSub, ih]

theorem hasSub_of_leadsWith (pat l : List Char) (h : leadsWith pat l = true) :
    hasSub pat l = true := by
  cases l with
  | nil =>
    cases pat with
    | nil => rfl
    | cons a as => simp [leadsWith] at h
  | cons c rest => simp [hasSub, h]

theorem hasSub_middle (pat l m : List Char) :
    hasSub pat (l ++ (pat ++ m)) = true :=
  hasSub_of_append_right pat l (pat ++ m)
    (hasSub_of_leadsWith pat (pat ++ m) (leadsWith_append pat m))

/-! ## Go `path/filepath` lexical path processing (Unix separator) -/

/-- Split a character list at every separator character; a list with no
separator yields a single group. -/
def splitSlash : List Char → List (List Char)
  | [] => [[]]
  | c :: rest =>
    if c = '/' then [] :: splitSlash rest
    else
      match splitSlash rest with
      | [] => [[c]]
      | g :: gs => (c :: g) :: gs

/-- Components kept by `filepath.Clean`: empty components and `.` are
dropped. -/
def keepComp (c : List Char) : Bool :=
  !c.isEmpty && c != ['.']

/-- The cleaned components of a path: split at separators, drop empty and
`.` components. -/
def comps (l : List Char) : List (List Char) :=
  (splitSlash l).filter keepComp

/-- Stack-based resolution of `..` components, exactly as in the loop of Go
`filepath.Clean`: `..` pops a poppable component, is dropped at the root of a
rooted path, and accumulates otherwise. The accumulator holds the output
components in reverse order. -/
def resolveD (rooted : Bool) : List (List Char) → List (List Char) → List (List Char)
  | acc, [] => acc.reverse
  | [], c :: rest =>
    if c = ['.', '.'] then
      if rooted then resolveD rooted [] rest else resolveD rooted [c] rest
    else resolveD rooted [c] rest
  | t :: acc2, c :: rest =>
    if c = ['.', '.'] then
      if t = ['.', '.'] then resolveD rooted (c :: t :: acc2) rest
      else resolveD rooted acc2 rest
    else resolveD rooted (c :: t :: acc2) rest

/-- Join components with the separator character. -/
def joinSlash : List (List Char) → List Char
  | [] => []
  | [c] => c
  | c :: c2 :: rest => c ++ '/' :: joinSlash (c2 :: rest)

/-- Model of Go `filepath.Clean` for the Unix separator: shortest lexically
equivalent path. -/
def cleanChars (l : List Char) : List Char :=
  match l with
  | [] => ['.']
  | c :: _ =>
    if c = '/' then '/' :: joinSlash (resolveD true [] (comps l))
    else
      let out := joinSlash (resolveD false [] (comps l))
      if out = [] then ['.'] else out

/-- Model of Go `filepath.Clean` on strings. -/
def filepathClean (s : String) : String :=
  String.mk (cleanChars s.data)

/-- Model of Go `filepath.Join` on two elements: non-empty elements are
joined with the separator and the result is cleaned. -/
def filepathJoin (a b : String) : String :=
  if a ≠ "" then filepathClean (a ++ "/" ++ b)
  else if b ≠ "" then filepathClean b
  else ""

/-- Model of Go `filepath.IsAbs` for Unix. -/
def isAbsPath (p : String) : Bool :=
  leadsWith ['/'] p.data

/-- Model of Go `filepath.Abs` for Unix: an absolute path is cleaned, a
relative path is joined to the working directory. -/
def filepathAbs (cwd p : String) : String :=
  if isAbsPath p then filepathClean p else filepathJoin cwd p

/-- Characters of a path up to and including its final separator. -/
def dropLastComp (l : List Char) : List Char :=
  (l.reverse.dropWhile (fun c => !(c = '/' : Bool))).reverse

/-- Model of Go `filepath.Dir`: everything before the final separator,
cleaned. -/
def filepathDir (p : String) : String :=
  String.mk (cleanChars (dropLastComp p.data))

example : filepathClean "/repo/.." = "/" := rfl
example : filepathClean "/a//b/./c" = "/a/b/c" := rfl
example : filepathClean "a/../.." = ".." := rfl
example : filepathClean "" = "." := rfl
example : filepathJoin "/repo" "feat-x" = "/repo/feat-x" := rfl
example : filepathJoin "/repo" ".." = "/" := rfl
example : filepathDir "/a/b" = "/a" := rfl

/-! ### Key lemmas about cleaning -/

theorem splitSlash_ne_nil (l : List Char) : splitSlash l ≠ [] := by
  cases l with
  | nil => simp [splitSlash]
  | cons c rest =>
    unfold splitSlash
    by_cases hc : c = '/'
    · simp [hc]
    · simp only [if_neg hc]
      split <;> simp

/-- A list with no separator splits into a single group. -/
theorem splitSlash_noSlash (d : List Char) (h : d.all (fun c => !(c = '/' : Bool)) = true) :
    splitSlash d = [d] := by
  induction d with
  | nil => rfl
  | cons c rest ih =>
    simp only [List.all_cons, Bool.and_eq_true, Bool.not_eq_eq_eq_not, Bool.not_true,
      decide_eq_false_iff_not] at h
    have hr := ih (by simpa using h.2)
    unfold splitSlash
    rw [if_neg h.1, hr]

theorem splitSlash_cons (c : Char) (rest : List Char) :
    splitSlash (c :: rest) =
      if c = '/' then [] :: splitSlash rest
      else
        match splitSlash rest with
        | [] => [[c]]
        | g :: gs => (c :: g) :: gs := rfl

/-- Splitting distributes over concatenation at a separator. -/
theorem splitSlash_append (a b : List Char) :
    splitSlash (a ++ '/' :: b) = splitSlash a ++ splitSlash b := by
  induction a with
  | nil => rfl
  | cons c rest ih =>
    simp only [List.cons_append]
    rw [splitSlash_cons c (rest ++ '/' :: b), splitSlash_cons c rest]
    by_cases hc : c = '/'
    · rw [if_pos hc, if_pos hc, ih]
      rfl
    · rw [if_neg hc, if_neg hc, ih]
      cases hrs : splitSlash rest with
      | nil => exact absurd hrs (splitSlash_ne_nil rest)
      | cons g gs => simp

theorem comps_append (a b : List Char) :
    comps (a ++ '/' :: b) = comps a ++ comps b := by
  unfold comps
  rw [splitSlash_append, List.filter_append]

theorem comps_noSlash (d : List Char) (h : d.all (fun c => !(c = '/' : Bool)) = true)
    (hk : keepComp d = true) : comps d = [d] := by
  unfold comps
  rw [splitSlash_noSlash d h]
  simp [hk]

/-- Appending one normal (non-`..`) component to the input of `resolveD`
appends it to the output. -/
theorem resolveD_append_single (rooted : Bool) (d : List Char) (hd : d ≠ ['.', '.']) :
    ∀ (cs : List (List Char)) (acc : List (List Char)),
      resolveD rooted acc (cs ++ [d]) = resolveD rooted acc cs ++ [d] := by
  intro cs
  induction cs with
  | nil =>
    intro acc
    cases acc with
    | nil => simp [resolveD, if_neg hd]
    | cons t acc2 => simp [resolveD, if_neg hd]
  | cons c rest ih =>
    intro acc
    simp only [List.cons_append]
    by_cases hc : c = ['.', '.']
    · cases acc with
      | nil =>
        cases rooted with
        | true => simp [resolveD, if_pos hc, ih []]
        | false => simp [resolveD, if_pos hc, ih [c]]
      | cons t acc2 =>
        by_cases ht : t = ['.', '.']
        · simp only [resolveD, if_pos hc, if_pos ht, ih (c :: t :: acc2)]
        · simp only [resolveD, if_pos hc, if_neg ht, ih acc2]
    · cases acc with
      | nil => simp only [resolveD, if_neg hc, ih [c]]
      | cons t acc2 => simp only [resolveD, if_neg hc, ih (c :: t :: acc2)]

theorem joinSlash_append_single (cs : List (List Char)) (d : List Char) :
    joinSlash (cs ++ [d]) = if cs = [] then d else joinSlash cs ++ '/' :: d := by
  induction cs with
  | nil => simp [joinSlash]
  | cons c rest ih =>
    cases rest with
    | nil => simp [joinSlash]
    | cons c2 rest2 =>
      have h1 : joinSlash ((c :: c2 :: rest2) ++ [d]) =
          c ++ '/' :: joinSlash ((c2 :: rest2) ++ [d]) := rfl
      rw [h1, ih]
      simp [joinSlash]

theorem stringData_append (a b : String) : (a ++ b).data = a.data ++ b.data := by
  cases a with
  | mk xs =>
    cases b with
    | mk ys => rfl

theorem stringMk_data (s : String) : String.mk s.data = s := by
  cases s with
  | mk xs => rfl

theorem stringExt (a b : String) (h : a.data = b.data) : a = b := by
  cases a with
  | mk xs =>
    cases b with
    | mk ys =>
      simp only at h
      rw [h]

/-- Cleaning a cleaned rooted path extended by one separator and one normal
component changes nothing. -/
theorem cleanChars_append_comp (l d : List Char)
    (hclean : cleanChars l = l) (hroot : leadsWith ['/'] l = true) (hne : l ≠ ['/'])
    (hslash : d.all (fun c => !(c = '/' : Bool)) = true)
    (hk : keepComp d = true) (hdd : d ≠ ['.', '.']) :
    cleanChars (l ++ '/' :: d) = l ++ '/' :: d := by
  cases l with
  | nil => simp [leadsWith] at hroot
  | cons c t =>
    have hc : c = '/' := by
      simp only [leadsWith, Bool.and_eq_true, decide_eq_true_eq] at hroot
      exact hroot.1.symm
    subst hc
    have hcomps : comps (('/' :: t) ++ '/' :: d) = comps ('/' :: t) ++ [d] := by
      rw [comps_append, comps_noSlash d hslash hk]
    have hres : resolveD true [] (comps (('/' :: t) ++ '/' :: d)) =
        resolveD true [] (comps ('/' :: t)) ++ [d] := by
      rw [hcomps, resolveD_append_single true d hdd]
    have hclean2 : '/' :: joinSlash (resolveD true [] (comps ('/' :: t))) = '/' :: t :=
      hclean
    have ht : t = joinSlash (resolveD true [] (comps ('/' :: t))) := by
      injection hclean2 with h3 h4
      exact h4.symm
    have hR : resolveD true [] (comps ('/' :: t)) ≠ [] := by
      intro h0
      rw [h0] at ht
      simp only [joinSlash] at ht
      exact hne (by rw [ht])
    have hgoal : cleanChars (('/' :: t) ++ '/' :: d) =
        '/' :: joinSlash (resolveD true [] (comps (('/' :: t) ++ '/' :: d))) := rfl
    rw [hgoal, hres, joinSlash_append_single, if_neg hR, ← ht]
    rfl

/-- A repository root in canonical absolute form: cleaned, rooted, and not
the file-system root itself. -/
def canonicalRoot (root : String) : Prop :=
  cleanChars root.data = root.data ∧ leadsWith ['/'] root.data = true ∧ root ≠ "/"

/-- A single normal path component: no separator, non-empty, not `.`, not
`..`. -/
def normalComp (d : String) : Prop :=
  d.data.all (fun c => !(c = '/' : Bool)) = true ∧ keepComp d.data = true ∧
    d.data ≠ ['.', '.']

instance : ∀ root, Decidable (canonicalRoot root) := by
  intro root
  unfold canonicalRoot
  infer_instance

instance : ∀ d, Decidable (normalComp d) := by
  intro d
  unfold normalComp
  infer_instance

/-- Joining a canonical root with a normal component is plain concatenation. -/
theorem filepathJoin_canonical (root d : String) (hroot : canonicalRoot root)
    (hd : normalComp d) :
    filepathJoin root d = root ++ "/" ++ d := by
  obtain ⟨hclean, habs, hne⟩ := hroot
  obtain ⟨hslash, hk, hdd⟩ := hd
  have hne2 : root ≠ "" := by
    intro h0
    rw [h0] at habs
    simp [leadsWith] at habs
  have hnedata : root.data ≠ ['/'] := by
    intro h0
    exact hne (stringExt root "/" h0)
  unfold filepathJoin
  rw [if_pos hne2]
  unfold filepathClean
  have hdata : (root ++ "/" ++ d).data = root.data ++ '/' :: d.data := by
    rw [stringData_append, stringData_append]
    simp
  rw [hdata, cleanChars_append_comp root.data d.data hclean habs hnedata hslash hk hdd, ← hdata,
    stringMk_data]

/-! ## The worktree argument transformer (`git.go`: `branchToDir`,
`buildAddArgs`, `Repo.Add`) -/

/-- Model of `branchToDir`: `strings.ReplaceAll(branch, "/", "-")`, a
character-wise replacement since the pattern is the single separator
character. -/
def branchToDir (branch : String) : String :=
  String.mk (branch.data.map (fun c => if c = '/' then '-' else c))

/-- The value-taking flags recognized by `buildAddArgs`. -/
def isValueFlag (s : String) : Bool :=
  s == "-b" || s == "-B" || s == "--orphan" || s == "--reason"

/-- The branch-bearing flags recognized by `buildAddArgs`. -/
def isBranchFlag (s : String) : Bool :=
  s == "-b" || s == "-B" || s == "--orphan"

/-- Model of `strings.Contains(arg, "=")`. -/
def containsEq (s : String) : Bool :=
  hasSub ['='] s.data

/-- Model of `strings.SplitN(arg, "=", 2)`: the characters before the first
`=` and the characters after it. -/
def splitAtEq : List Char → List Char × List Char
  | [] => ([], [])
  | c :: rest =>
    if c = '=' then ([], rest)
    else
      let p := splitAtEq rest
      (c :: p.1, p.2)

/-- The scanning loop of `buildAddArgs`, with the mutable state
(`flags`, `positional`, `branchFlag`, `branchValue`, `pastFlags`) made
explicit. Fails with the message of the corresponding `fmt.Errorf` when a
value-taking flag has no following token. -/
def scanArgs : List String → Bool → List String → List String → String → String →
    Except String (List String × List String × String × String)
  | [], _, flags, positional, bf, bv => .ok (flags, positional, bf, bv)
  | arg :: rest, pastFlags, flags, positional, bf, bv =>
    if pastFlags then scanArgs rest true flags (positional ++ [arg]) bf bv
    else if arg = "--" then scanArgs rest true flags positional bf bv
    else if leadsWith ['-', '-'] arg.data && containsEq arg then
      let key := String.mk (splitAtEq arg.data).1
      let value := String.mk (splitAtEq arg.data).2
      if isBranchFlag key then
        scanArgs rest false (flags ++ [arg]) positional key value
      else
        scanArgs rest false (flags ++ [arg]) positional bf bv
    else if isValueFlag arg then
      match rest with
      | [] => .error (arg ++ " requires a value")
      | v :: rest2 =>
        if isBranchFlag arg then
          scanArgs rest2 false (flags ++ [arg, v]) positional arg v
        else
          scanArgs rest2 false (flags ++ [arg, v]) positional bf bv
    else if leadsWith ['-'] arg.data then
      scanArgs rest false (flags ++ [arg]) positional bf bv
    else
      scanArgs rest false flags (positional ++ [arg]) bf bv

/-- Model of `buildAddArgs`: parses user arguments and returns the
transformed arguments for `git worktree add` together with the derived
worktree path. -/
def buildAddArgs (args : List String) (repoDir : String) :
    Except String (List String × String) :=
  if args.isEmpty then .error "requires a branch name"
  else
    match scanArgs args false [] [] "" "" with
    | .error e => .error e
    | .ok (flags, positional, branchFlag, branchValue) =>
      if branchFlag ≠ "" then
        if positional.length > 1 then .error "too many positional arguments"
        else
          .ok (flags ++ [branchToDir branchValue] ++ positional,
            filepathJoin repoDir (branchToDir branchValue))
      else if positional.length = 0 then .error "requires a branch name"
      else if positional.length > 1 then .error "too many positional arguments"
      else
        .ok (flags ++ [branchToDir (positional.headD ""), positional.headD ""],
          filepathJoin repoDir (branchToDir (positional.headD "")))

/-- The branch name `buildAddArgs` derives from an argument list, when the
list is accepted. -/
def branchOf (args : List String) : Option String :=
  if args.isEmpty then none
  else
    match scanArgs args false [] [] "" "" with
    | .error _ => none
    | .ok (_, positional, branchFlag, branchValue) =>
      if branchFlag ≠ "" then
        if positional.length > 1 then none else some branchValue
      else if positional.length = 1 then some (positional.headD "") else none

/-- Model of `Repo.Add`: on a `buildAddArgs` failure the error is returned
and no process is started; on success the returned list is the full
argument vector handed to the external `git` binary (an `.ok` result is the
unique point at which the model invokes `git`). -/
def RepoAdd (repoDir : String) (args : List String) :
    Except String (List String × String) :=
  match buildAddArgs args repoDir with
  | .error e => .error e
  | .ok (gitArgs, worktreePath) => .ok (["worktree", "add"] ++ gitArgs, worktreePath)

/-- A path lies inside a root directory when it extends the root by a
separator. -/
def insideRoot (root p : String) : Bool :=
  leadsWith (root ++ "/").data p.data

/-- Minimal well-formedness of a branch name given as a positional
argument: not flag-like and not a special path component (git itself
rejects branch names that are empty, start with a dash, or are `.` or
`..`). -/
def validBranchArg (b : String) : Prop :=
  leadsWith ['-'] b.data = false ∧ b ≠ "" ∧ b ≠ "." ∧ b ≠ ".."

instance : ∀ b, Decidable (validBranchArg b) := by
  intro b
  unfold validBranchArg
  infer_instance

example : buildAddArgs ["feat/x"] "/repo" = .ok (["feat-x", "feat/x"], "/repo/feat-x") := rfl
example : buildAddArgs ["-b", "feat/x", "origin/main"] "/repo" =
    .ok (["-b", "feat/x", "feat-x", "origin/main"], "/repo/feat-x") := rfl
example : buildAddArgs [] "/repo" = .error "requires a branch name" := rfl
example : buildAddArgs ["-b"] "/repo" = .error "-b requires a value" := rfl
example : buildAddArgs ["a", "b"] "/repo" = .error "too many positional arguments" := rfl
example : buildAddArgs ["--orphan=feat/x"] "/repo" =
    .ok (["--orphan=feat/x", "feat-x"], "/repo/feat-x") := rfl
example : buildAddArgs [".."] "/repo" = .ok (["..", ".."], "/") := rfl
example : buildAddArgs ["--", "feat/x"] "/repo" = .ok (["feat-x", "feat/x"], "/repo/feat-x") := rfl
example : buildAddArgs ["--track", "-b", "x", "start"] "/repo" =
    .ok (["--track", "-b", "x", "x", "start"], "/repo/x") := rfl
example : branchOf ["-b", "feat/x", "origin/main"] = some "feat/x" := rfl
example : RepoAdd "/repo" ["feat/x"] =
    .ok (["worktree", "add", "feat-x", "feat/x"], "/repo/feat-x") := rfl
example : insideRoot "/repo" "/repo/feat-x" = true := rfl
example : insideRoot "/repo" "/" = false := rfl

/-! ### Symbolic evaluation lemmas for the transformer -/

theorem ne_of_notDash (b : String) (hb : leadsWith ['-'] b.data = false) (s : String)
    (hs : leadsWith ['-'] s.data = true) : b ≠ s := by
  intro h
  rw [h, hs] at hb
  simp at hb

theorem leadsWith_dd (l : List Char) (h : leadsWith ['-', '-'] l = true) :
    leadsWith ['-'] l = true := by
  cases l with
  | nil => simp [leadsWith] at h
  | cons c rest =>
    simp only [leadsWith, Bool.and_eq_true] at h ⊢
    exact ⟨h.1, trivial⟩

theorem isValueFlag_eq_false (b : String) (hb : leadsWith ['-'] b.data = false) :
    isValueFlag b = false := by
  unfold isValueFlag
  have h1 : (b == "-b") = false := beq_eq_false_iff_ne.mpr (ne_of_notDash b hb "-b" (by decide))
  have h2 : (b == "-B") = false := beq_eq_false_iff_ne.mpr (ne_of_notDash b hb "-B" (by decide))
  have h3 : (b == "--orphan") = false :=
    beq_eq_false_iff_ne.mpr (ne_of_notDash b hb "--orphan" (by decide))
  have h4 : (b == "--reason") = false :=
    beq_eq_false_iff_ne.mpr (ne_of_notDash b hb "--reason" (by decide))
  simp [h1, h2, h3, h4]

/-- A single non-flag token scans to a single positional argument. -/
theorem scanArgs_single (b : String) (hb : leadsWith ['-'] b.data = false) :
    scanArgs [b] false [] [] "" "" = .ok ([], [b], "", "") := by
  have hne : ¬(b = "--") := ne_of_notDash b hb "--" (by decide)
  have hdd : leadsWith ['-', '-'] b.data = false := by
    cases h2 : leadsWith ['-', '-'] b.data with
    | false => rfl
    | true =>
      rw [leadsWith_dd b.data h2] at hb
      simp at hb
  have hvf : isValueFlag b = false := isValueFlag_eq_false b hb
  simp [scanArgs, hne, hdd, hvf, hb]

theorem sub_eq_dash_or_self (c : Char) :
    (if c = '/' then '-' else c) = '-' ∨ (if c = '/' then '-' else c) = c := by
  by_cases hc : c = '/'
  · exact Or.inl (by rw [if_pos hc])
  · exact Or.inr (by rw [if_neg hc])

theorem sub_eq_dot (c : Char) (h : (if c = '/' then '-' else c) = '.') : c = '.' := by
  by_cases hc : c = '/'
  · rw [if_pos hc] at h
    exact absurd h (by decide)
  · rw [if_neg hc] at h
    exact h

theorem sub_ne_slash (c : Char) : ((if c = '/' then '-' else c) = '/') = False := by
  by_cases hc : c = '/'
  · rw [if_pos hc]
    simp
  · rw [if_neg hc]
    simp [hc]

/-- The slug of a well-formed branch name is a normal path component. -/
theorem branchToDir_normal (b : String) (h2 : b ≠ "") (h3 : b ≠ ".") (h4 : b ≠ "..") :
    normalComp (branchToDir b) := by
  refine ⟨?_, ?_, ?_⟩
  · show (b.data.map (fun c => if c = '/' then '-' else c)).all
      (fun c => !(c = '/' : Bool)) = true
    rw [List.all_map]
    rw [List.all_eq_true]
    intro c _
    simp [Function.comp, sub_ne_slash c]
  · show keepComp (b.data.map (fun c => if c = '/' then '-' else c)) = true
    unfold keepComp
    have hne : b.data ≠ [] := by
      intro h0
      exact h2 (stringExt b "" h0)
    have hmapne : b.data.map (fun c => if c = '/' then '-' else c) ≠ [] := by
      simpa using hne
    have hnedot : b.data.map (fun c => if c = '/' then '-' else c) ≠ ['.'] := by
      intro h0
      cases hbd : b.data with
      | nil => exact hne hbd
      | cons c rest =>
        rw [hbd] at h0
        simp only [List.map_cons, List.cons.injEq] at h0
        have hrest : rest = [] := by simpa using h0.2
        have hc : c = '.' := sub_eq_dot c h0.1
        exact h3 (stringExt b "." (by rw [hbd, hc, hrest]))
    simp [hmapne, hnedot]
  · show b.data.map (fun c => if c = '/' then '-' else c) ≠ ['.', '.']
    intro h0
    cases hbd : b.data with
    | nil => simp [hbd] at h0
    | cons c rest =>
      rw [hbd] at h0
      simp only [List.map_cons, List.cons.injEq] at h0
      cases hrd : rest with
      | nil => simp [hrd] at h0
      | cons c2 rest2 =>
        rw [hrd] at h0
        simp only [List.map_cons, List.cons.injEq] at h0
        have hc : c = '.' := sub_eq_dot c h0.1
        have hc2 : c2 = '.' := sub_eq_dot c2 h0.2.1
        have hrest2 : rest2 = [] := by simpa using h0.2.2
        exact h4 (stringExt b ".." (by rw [hbd, hrd, hc, hc2, hrest2]))

/-- When the scan succeeds with a branch-bearing flag and at most one
positional argument, `buildAddArgs` rewrites to flags, slug, then the
positional start-point. -/
theorem buildAddArgs_ok_of_scan (args : List String) (root : String)
    (flags positional : List String) (bf bv : String)
    (hscan : scanArgs args false [] [] "" "" = .ok (flags, positional, bf, bv))
    (hbf : bf ≠ "") (hlen : positional.length ≤ 1) (hargs : args ≠ []) :
    buildAddArgs args root =
      .ok (flags ++ [branchToDir bv] ++ positional, filepathJoin root (branchToDir bv)) := by
  cases args with
  | nil => exact absurd rfl hargs
  | cons a rest =>
    unfold buildAddArgs
    rw [hscan]
    simp [hbf, Nat.not_lt.mpr hlen]

/-- Every accepted argument list determines a branch whose slug gives the
derived path. -/
theorem buildAddArgs_ok_path (args : List String) (root : String)
    (gargs : List String) (p : String)
    (hok : buildAddArgs args root = .ok (gargs, p)) :
    ∃ b, branchOf args = some b ∧ p = filepathJoin root (branchToDir b) := by
  unfold buildAddArgs at hok
  unfold branchOf
  by_cases hargs : args.isEmpty
  · rw [if_pos hargs] at hok
    cases hok
  · rw [if_neg hargs] at hok
    rw [if_neg hargs]
    cases hscan : scanArgs args false [] [] "" "" with
    | error e =>
      rw [hscan] at hok
      cases hok
    | ok r =>
      obtain ⟨flags, positional, bf, bv⟩ := r
      simp only [hscan] at hok
      simp only [hscan]
      by_cases hbf : bf ≠ ""
      · rw [if_pos hbf] at hok
        simp only [if_pos hbf]
        by_cases hlen : positional.length > 1
        · rw [if_pos hlen] at hok
          cases hok
        · rw [if_neg hlen] at hok
          rw [if_neg hlen]
          refine ⟨bv, rfl, ?_⟩
          injection hok with h1
          injection h1 with h2 h3
          exact h3.symm
      · rw [if_neg hbf] at hok
        simp only [if_neg hbf]
        by_cases h0 : positional.length = 0
        · rw [if_pos h0] at hok
          cases hok
        · rw [if_neg h0] at hok
          by_cases hlen : positional.length > 1
          · rw [if_pos hlen] at hok
            cases hok
          · rw [if_neg hlen] at hok
            have h1 : positional.length = 1 := by omega
            rw [if_pos h1]
            refine ⟨positional.headD "", rfl, ?_⟩
            injection hok with h2
            injection h2 with h3 h4
            exact h4.symm

theorem insideRoot_of_concat (root d : String) :
    insideRoot root (root ++ "/" ++ d) = true := by
  unfold insideRoot
  have h : (root ++ "/" ++ d).data = (root ++ "/").data ++ d.data :=
    stringData_append (root ++ "/") d
  rw [h]
  exact leadsWith_append (root ++ "/").data d.data

theorem concat_cancel_left (a b c : String) (h : a ++ b = a ++ c) : b = c := by
  have hd : (a ++ b).data = (a ++ c).data := by rw [h]
  rw [stringData_append, stringData_append] at hd
  exact stringExt b c (List.append_cancel_left hd)

/-- C1 (counterexample): the argument list `[".."]` is accepted by
`buildAddArgs`, and for repository root `/repo` the derived worktree path is
`/`, the parent of the root, which does not lie inside the root: the claimed
no-traversal invariant fails for the branch name `..`. -/
theorem buildAddArgs_dotdot_escapes :
    buildAddArgs [".."] "/repo" = .ok (["..", ".."], "/") ∧
      insideRoot "/repo" "/" = false :=
  ⟨rfl, rfl⟩

/-- C1 (amended): for a canonical absolute repository root and any argument
list accepted by `buildAddArgs` whose derived branch name is not empty and
not the special component `.` or `..`, the derived worktree path is the root
extended by the slug, hence lies inside the repository root; and two such
branch names yield the same path exactly when their slugs coincide, i.e.
exactly when the branch names differ only in slash-versus-hyphen
placement. -/
theorem buildAddArgs_path_inside_unique :
    (∀ root args gargs p b, canonicalRoot root →
      buildAddArgs args root = .ok (gargs, p) →
      branchOf args = some b → b ≠ "" → b ≠ "." → b ≠ ".." →
      p = root ++ "/" ++ branchToDir b ∧ insideRoot root p = true) ∧
    (∀ root b1 b2, canonicalRoot root →
      b1 ≠ "" → b1 ≠ "." → b1 ≠ ".." → b2 ≠ "" → b2 ≠ "." → b2 ≠ ".." →
      (filepathJoin root (branchToDir b1) = filepathJoin root (branchToDir b2) ↔
        branchToDir b1 = branchToDir b2)) := by
  constructor
  · intro root args gargs p b hroot hok hb hb2 hb3 hb4
    obtain ⟨b0, hb0, hp⟩ := buildAddArgs_ok_path args root gargs p hok
    rw [hb0] at hb
    injection hb with hbb
    rw [hbb] at hp
    have hj := filepathJoin_canonical root (branchToDir b) hroot
      (branchToDir_normal b hb2 hb3 hb4)
    rw [hp, hj]
    exact ⟨rfl, insideRoot_of_concat root (branchToDir b)⟩
  · intro root b1 b2 hroot h12 h13 h14 h22 h23 h24
    rw [filepathJoin_canonical root (branchToDir b1) hroot
        (branchToDir_normal b1 h12 h13 h14),
      filepathJoin_canonical root (branchToDir b2) hroot
        (branchToDir_normal b2 h22 h23 h24)]
    constructor
    · intro h
      exact concat_cancel_left (root ++ "/") (branchToDir b1) (branchToDir b2) h
    · intro h
      rw [h]

/-- C1 (witness): instantiation of the amended invariant at the argument
list `["fix/login-bug"]` and root `/repo`. -/
theorem buildAddArgs_path_inside_unique_witness :
    "/repo/fix-login-bug" = "/repo" ++ "/" ++ branchToDir "fix/login-bug" ∧
      insideRoot "/repo" "/repo/fix-login-bug" = true :=
  buildAddArgs_path_inside_unique.1 "/repo" ["fix/login-bug"] ["fix-login-bug", "fix/login-bug"]
    "/repo/fix-login-bug" "fix/login-bug" (by decide) rfl rfl (by decide) (by decide) (by decide)

/-- C2: a well-formed branch name given as the single argument is accepted;
the rewritten argument list is the slug followed by the branch, and the
derived path is the repository root, a separator, and the branch name with
every `/` replaced by `-`. -/
theorem buildAddArgs_single_branch (b root : String) (hb : validBranchArg b)
    (hroot : canonicalRoot root) :
    buildAddArgs [b] root = .ok ([branchToDir b, b], root ++ "/" ++ branchToDir b) := by
  obtain ⟨hb1, hb2, hb3, hb4⟩ := hb
  have hscan := scanArgs_single b hb1
  have hjoin := filepathJoin_canonical root (branchToDir b) hroot
    (branchToDir_normal b hb2 hb3 hb4)
  unfold buildAddArgs
  simp only [hscan]
  simp [hjoin]

/-- C2 (witness): the single branch name `feat/x` with root `/repo`. -/
theorem buildAddArgs_single_branch_witness :
    buildAddArgs ["feat/x"] "/repo" = .ok (["feat-x", "feat/x"], "/repo/feat-x") := by
  have h := buildAddArgs_single_branch "feat/x" "/repo" (by decide) (by decide)
  exact h.trans rfl

/-- C3: when a branch-bearing flag is present (so that the scan records a
non-empty branch flag), the rewritten argument list is the flags in their
original order, then the slug, then the optional start-point positional;
in particular `["-b", "feat/x", "origin/main"]` with a canonical root
rewrites to `["-b", "feat/x", "feat-x", "origin/main"]` with derived path
`root/feat-x`. -/
theorem buildAddArgs_branch_flag_order :
    (∀ args root flags positional bf bv,
      scanArgs args false [] [] "" "" = .ok (flags, positional, bf, bv) →
      bf ≠ "" → positional.length ≤ 1 → args ≠ [] →
      buildAddArgs args root =
        .ok (flags ++ [branchToDir bv] ++ positional, filepathJoin root (branchToDir bv))) ∧
    (∀ root, canonicalRoot root →
      buildAddArgs ["-b", "feat/x", "origin/main"] root =
        .ok (["-b", "feat/x", "feat-x", "origin/main"], root ++ "/" ++ "feat-x")) := by
  constructor
  · exact buildAddArgs_ok_of_scan
  · intro root hroot
    have hscan : scanArgs ["-b", "feat/x", "origin/main"] false [] [] "" "" =
        .ok (["-b", "feat/x"], ["origin/main"], "-b", "feat/x") := rfl
    have h := buildAddArgs_ok_of_scan ["-b", "feat/x", "origin/main"] root
      ["-b", "feat/x"] ["origin/main"] "-b" "feat/x" hscan (by decide) (by decide) (by decide)
    have hj : filepathJoin root (branchToDir "feat/x") = root ++ "/" ++ branchToDir "feat/x" :=
      filepathJoin_canonical root (branchToDir "feat/x") hroot (by decide)
    rw [h, hj]
    rfl

/-- C3 (witness): the concrete instance at root `/repo`. -/
theorem buildAddArgs_branch_flag_order_witness :
    buildAddArgs ["-b", "feat/x", "origin/main"] "/repo" =
      .ok (["-b", "feat/x", "feat-x", "origin/main"], "/repo/feat-x") := by
  have h := buildAddArgs_branch_flag_order.2 "/repo" (by decide)
  exact h.trans rfl

/-! ## The invalid-argument characterization (claim C4) -/

/-- Modelled from the spec, section 4.2: the scanning rules reduced to the
three observables that the invalid-arguments characterization mentions —
the number of positional tokens, whether a branch-bearing flag was given,
and whether a recognized value-taking flag is left at the end of the list
with no following value. -/
def specScan : List String → Bool → Nat × Bool × Bool
  | [], _ => (0, false, false)
  | arg :: rest, pastFlags =>
    if pastFlags then
      ((specScan rest true).1 + 1, (specScan rest true).2.1, (specScan rest true).2.2)
    else if arg = "--" then specScan rest true
    else if leadsWith ['-', '-'] arg.data && containsEq arg then
      ((specScan rest false).1,
        (specScan rest false).2.1 || isBranchFlag (String.mk (splitAtEq arg.data).1),
        (specScan rest false).2.2)
    else if isValueFlag arg then
      match rest with
      | [] => (0, false, true)
      | _ :: rest2 =>
        ((specScan rest2 false).1,
          (specScan rest2 false).2.1 || isBranchFlag arg,
          (specScan rest2 false).2.2)
    else if leadsWith ['-'] arg.data then specScan rest false
    else ((specScan rest false).1 + 1, (specScan rest false).2.1, (specScan rest false).2.2)

/-- The invalid-argument conditions exactly as the spec words them: empty
list, a dangling value-taking flag, more than one positional token, or no
positional token while no branch-bearing flag was given. -/
def specInvalidArgs (args : List String) : Prop :=
  args = [] ∨ (specScan args false).2.2 = true ∨ (specScan args false).1 > 1 ∨
    ((specScan args false).1 = 0 ∧ (specScan args false).2.1 = false)

instance : ∀ args, Decidable (specInvalidArgs args) := by
  intro args
  unfold specInvalidArgs
  infer_instance

/-- The relation the bridge between the implementation scan and the spec
scan maintains: an error is reflected as a dangling flag; a success has no
dangling flag, adds the counted positionals, and ends with a branch flag
exactly when one was already set or the spec scan saw one. -/
def scanOk (r : Except String (List String × List String × String × String))
    (spec : Nat × Bool × Bool) (positional : List String) (bf : String) : Prop :=
  match r with
  | .error _ => spec.2.2 = true
  | .ok (_, p, b, _) =>
    spec.2.2 = false ∧ p.length = positional.length + spec.1 ∧
      ((b ≠ "") ↔ (bf ≠ "" ∨ spec.2.1 = true))

theorem isBranchFlag_ne_empty (s : String) (h : isBranchFlag s = true) : s ≠ "" := by
  intro h0
  rw [h0] at h
  exact absurd h (by decide)

theorem scanArgs_cons_true (arg : String) (rest : List String)
    (flags positional : List String) (bf bv : String) :
    scanArgs (arg :: rest) true flags positional bf bv =
      scanArgs rest true flags (positional ++ [arg]) bf bv := by
  rw [scanArgs.eq_def]
  exact rfl

theorem specScan_cons_true (arg : String) (rest : List String) :
    specScan (arg :: rest) true =
      ((specScan rest true).1 + 1, (specScan rest true).2.1, (specScan rest true).2.2) := by
  rw [specScan.eq_def]
  exact rfl

theorem scanArgs_cons_false (arg : String) (rest : List String)
    (flags positional : List String) (bf bv : String) :
    scanArgs (arg :: rest) false flags positional bf bv =
      (if arg = "--" then scanArgs rest true flags positional bf bv
      else if leadsWith ['-', '-'] arg.data && containsEq arg then
        (if isBranchFlag (String.mk (splitAtEq arg.data).1) then
          scanArgs rest false (flags ++ [arg]) positional
            (String.mk (splitAtEq arg.data).1) (String.mk (splitAtEq arg.data).2)
        else scanArgs rest false (flags ++ [arg]) positional bf bv)
      else if isValueFlag arg then
        (match rest with
        | [] => .error (arg ++ " requires a value")
        | v :: rest2 =>
          if isBranchFlag arg then
            scanArgs rest2 false (flags ++ [arg, v]) positional arg v
          else scanArgs rest2 false (flags ++ [arg, v]) positional bf bv)
      else if leadsWith ['-'] arg.data then
        scanArgs rest false (flags ++ [arg]) positional bf bv
      else scanArgs rest false flags (positional ++ [arg]) bf bv) := by
  rw [scanArgs.eq_def]
  exact rfl

theorem specScan_cons_false (arg : String) (rest : List String) :
    specScan (arg :: rest) false =
      (if arg = "--" then specScan rest true
      else if leadsWith ['-', '-'] arg.data && containsEq arg then
        ((specScan rest false).1,
          (specScan rest false).2.1 || isBranchFlag (String.mk (splitAtEq arg.data).1),
          (specScan rest false).2.2)
      else if isValueFlag arg then
        (match rest with
        | [] => (0, false, true)
        | _ :: rest2 =>
          ((specScan rest2 false).1,
            (specScan rest2 false).2.1 || isBranchFlag arg,
            (specScan rest2 false).2.2))
      else if leadsWith ['-'] arg.data then specScan rest false
      else ((specScan rest false).1 + 1, (specScan rest false).2.1,
        (specScan rest false).2.2)) := by
  rw [specScan.eq_def]
  exact rfl

/-- Transport of `scanOk` across adding one positional token. -/
theorem scanOk_add_pos (r : Except String (List String × List String × String × String))
    (s : Nat × Bool × Bool) (positional : List String) (arg bf : String)
    (h : scanOk r s (positional ++ [arg]) bf) :
    scanOk r (s.1 + 1, s.2.1, s.2.2) positional bf := by
  cases r with
  | error e => exact h
  | ok t =>
    obtain ⟨f, p, b, v⟩ := t
    obtain ⟨hd, hl, hb⟩ := h
    refine ⟨hd, ?_, hb⟩
    simp only [List.length_append, List.length_cons, List.length_nil] at hl
    show p.length = positional.length + (s.1 + 1)
    omega

/-- Transport of `scanOk` across recording a branch-bearing flag. -/
theorem scanOk_set_bf (r : Except String (List String × List String × String × String))
    (s : Nat × Bool × Bool) (positional : List String) (bf key : String)
    (hkey : isBranchFlag key = true)
    (h : scanOk r s positional key) :
    scanOk r (s.1, s.2.1 || isBranchFlag key, s.2.2) positional bf := by
  cases r with
  | error e => exact h
  | ok t =>
    obtain ⟨f, p, b, v⟩ := t
    obtain ⟨hd, hl, hb⟩ := h
    refine ⟨hd, hl, ?_⟩
    rw [hkey]
    simp only [Bool.or_true]
    constructor
    · intro _
      exact Or.inr trivial
    · intro _
      exact hb.mpr (Or.inl (isBranchFlag_ne_empty key hkey))

/-- Transport of `scanOk` across a non-branch-bearing value flag. -/
theorem scanOk_keep_bf (r : Except String (List String × List String × String × String))
    (s : Nat × Bool × Bool) (positional : List String) (bf key : String)
    (hkey : isBranchFlag key = false)
    (h : scanOk r s positional bf) :
    scanOk r (s.1, s.2.1 || isBranchFlag key, s.2.2) positional bf := by
  cases r with
  | error e => exact h
  | ok t =>
    obtain ⟨f, p, b, v⟩ := t
    obtain ⟨hd, hl, hb⟩ := h
    rw [hkey]
    simp only [Bool.or_false]
    exact ⟨hd, hl, hb⟩

theorem scan_spec_nil (pastFlags : Bool) (flags positional : List String) (bf bv : String) :
    scanOk (scanArgs [] pastFlags flags positional bf bv) (specScan [] pastFlags)
      positional bf := by
  show (0, false, false).2.2 = false ∧
    positional.length = positional.length + (0, false, false).1 ∧
    ((bf ≠ "") ↔ (bf ≠ "" ∨ (0, false, false).2.1 = true))
  refine ⟨rfl, by simp, by simp⟩

/-- The implementation scan and the spec scan agree: errors correspond to a
dangling value flag, and successes agree on the positional count and the
presence of a branch-bearing flag. -/
theorem scan_spec_bridge (n : Nat) : ∀ (args : List String), args.length ≤ n →
    ∀ (pastFlags : Bool) (flags positional : List String) (bf bv : String),
      scanOk (scanArgs args pastFlags flags positional bf bv) (specScan args pastFlags)
        positional bf := by
  induction n with
  | zero =>
    intro args hlen
    have h0 : args = [] := List.eq_nil_of_length_eq_zero (Nat.le_zero.mp hlen)
    subst h0
    intro pastFlags flags positional bf bv
    exact scan_spec_nil pastFlags flags positional bf bv
  | succ n ih =>
    intro args hlen
    cases args with
    | nil =>
      intro pastFlags flags positional bf bv
      exact scan_spec_nil pastFlags flags positional bf bv
    | cons arg rest =>
      intro pastFlags flags positional bf bv
      have hrest : rest.length ≤ n := by
        simp only [List.length_cons] at hlen
        omega
      cases pastFlags with
      | true =>
        rw [scanArgs_cons_true, specScan_cons_true]
        exact scanOk_add_pos _ _ positional arg bf
          (ih rest hrest true flags (positional ++ [arg]) bf bv)
      | false =>
        rw [scanArgs_cons_false, specScan_cons_false]
        by_cases h1 : arg = "--"
        · rw [if_pos h1, if_pos h1]
          exact ih rest hrest true flags positional bf bv
        · rw [if_neg h1, if_neg h1]
          by_cases h2 : (leadsWith ['-', '-'] arg.data && containsEq arg) = true
          · rw [if_pos h2, if_pos h2]
            by_cases h3 : isBranchFlag (String.mk (splitAtEq arg.data).1) = true
            · rw [if_pos h3]
              exact scanOk_set_bf _ _ positional bf _ h3
                (ih rest hrest false (flags ++ [arg]) positional
                  (String.mk (splitAtEq arg.data).1) (String.mk (splitAtEq arg.data).2))
            · rw [if_neg h3]
              have h3f : isBranchFlag (String.mk (splitAtEq arg.data).1) = false := by
                cases hx : isBranchFlag (String.mk (splitAtEq arg.data).1) with
                | false => rfl
                | true => exact absurd hx h3
              exact scanOk_keep_bf _ _ positional bf _ h3f
                (ih rest hrest false (flags ++ [arg]) positional bf bv)
          · rw [if_neg h2, if_neg h2]
            by_cases h4 : isValueFlag arg = true
            · rw [if_pos h4, if_pos h4]
              cases rest with
              | nil => exact rfl
              | cons v rest2 =>
                have hrest2 : rest2.length ≤ n := by
                  simp only [List.length_cons] at hlen
                  omega
                show scanOk
                  (if isBranchFlag arg = true then
                    scanArgs rest2 false (flags ++ [arg, v]) positional arg v
                  else scanArgs rest2 false (flags ++ [arg, v]) positional bf bv)
                  ((specScan rest2 false).1,
                    (specScan rest2 false).2.1 || isBranchFlag arg,
                    (specScan rest2 false).2.2)
                  positional bf
                by_cases h5 : isBranchFlag arg = true
                · rw [if_pos h5]
                  exact scanOk_set_bf _ _ positional bf arg h5
                    (ih rest2 hrest2 false (flags ++ [arg, v]) positional arg v)
                · rw [if_neg h5]
                  have h5f : isBranchFlag arg = false := by
                    cases hx : isBranchFlag arg with
                    | false => rfl
                    | true => exact absurd hx h5
                  exact scanOk_keep_bf _ _ positional bf arg h5f
                    (ih rest2 hrest2 false (flags ++ [arg, v]) positional bf bv)
            · rw [if_neg h4, if_neg h4]
              by_cases h6 : leadsWith ['-'] arg.data = true
              · rw [if_pos h6, if_pos h6]
                exact ih rest hrest false (flags ++ [arg]) positional bf bv
              · rw [if_neg h6, if_neg h6]
                exact scanOk_add_pos _ _ positional arg bf
                  (ih rest hrest false flags (positional ++ [arg]) bf bv)

/-- C4: the transformer fails exactly under the invalid-argument conditions
of the spec (empty list, dangling value-taking flag, more than one
positional token, or no positional token while no branch-bearing flag was
given), and on any such failure `Repo.Add` returns the error without
handing an argument vector to the external `git` binary. -/
theorem buildAddArgs_invalid_iff :
    (∀ args root, (∃ e, buildAddArgs args root = .error e) ↔ specInvalidArgs args) ∧
    (∀ args root e, buildAddArgs args root = .error e → RepoAdd root args = .error e) := by
  constructor
  · intro args root
    by_cases hnil : args = []
    · subst hnil
      constructor
      · intro _
        exact Or.inl rfl
      · intro _
        exact ⟨"requires a branch name", rfl⟩
    · have hne : args.isEmpty = false := by
        cases args with
        | nil => exact absurd rfl hnil
        | cons a as => rfl
      have hb := scan_spec_bridge args.length args (le_refl args.length) false [] [] "" ""
      cases hS : scanArgs args false [] [] "" "" with
      | error e0 =>
        rw [hS] at hb
        simp only [scanOk] at hb
        have hbuild : buildAddArgs args root = .error e0 := by
          unfold buildAddArgs
          simp [hne, hS]
        constructor
        · intro _
          exact Or.inr (Or.inl hb)
        · intro _
          exact ⟨e0, hbuild⟩
      | ok t =>
        obtain ⟨f, p, b, v⟩ := t
        rw [hS] at hb
        simp only [scanOk] at hb
        obtain ⟨hd, hl, hbf⟩ := hb
        have hl2 : p.length = (specScan args false).1 := by simpa using hl
        have hbf2 : (b ≠ "") ↔ (specScan args false).2.1 = true := by simpa using hbf
        have hbuild : buildAddArgs args root =
            (if b ≠ "" then
              if p.length > 1 then .error "too many positional arguments"
              else .ok (f ++ [branchToDir v] ++ p, filepathJoin root (branchToDir v))
            else if p.length = 0 then .error "requires a branch name"
            else if p.length > 1 then .error "too many positional arguments"
            else .ok (f ++ [branchToDir (p.headD ""), p.headD ""],
              filepathJoin root (branchToDir (p.headD "")))) := by
          unfold buildAddArgs
          simp only [hne, Bool.false_eq_true, if_false, hS]
        by_cases hb0 : b ≠ ""
        · rw [if_pos hb0] at hbuild
          by_cases hp1 : p.length > 1
          · rw [if_pos hp1] at hbuild
            constructor
            · intro _
              refine Or.inr (Or.inr (Or.inl ?_))
              omega
            · intro _
              exact ⟨"too many positional arguments", hbuild⟩
          · rw [if_neg hp1] at hbuild
            constructor
            · intro he
              obtain ⟨e, he⟩ := he
              rw [hbuild] at he
              cases he
            · intro hspec
              rcases hspec with h | h | h | h
              · exact absurd h hnil
              · rw [hd] at h
                cases h
              · exact absurd (by omega : p.length > 1) hp1
              · have hs1 := hbf2.mp hb0
                rw [h.2] at hs1
                cases hs1
        · rw [if_neg hb0] at hbuild
          have hbff : (specScan args false).2.1 = false := by
            cases hx : (specScan args false).2.1 with
            | false => rfl
            | true => exact absurd (hbf2.mpr hx) hb0
          by_cases hp0 : p.length = 0
          · rw [if_pos hp0] at hbuild
            constructor
            · intro _
              refine Or.inr (Or.inr (Or.inr ⟨by omega, hbff⟩))
            · intro _
              exact ⟨"requires a branch name", hbuild⟩
          · rw [if_neg hp0] at hbuild
            by_cases hp1 : p.length > 1
            · rw [if_pos hp1] at hbuild
              constructor
              · intro _
                exact Or.inr (Or.inr (Or.inl (by omega)))
              · intro _
                exact ⟨"too many positional arguments", hbuild⟩
            · rw [if_neg hp1] at hbuild
              constructor
              · intro he
                obtain ⟨e, he⟩ := he
                rw [hbuild] at he
                cases he
              · intro hspec
                rcases hspec with h | h | h | h
                · exact absurd h hnil
                · rw [hd] at h
                  cases h
                · exact absurd (by omega : p.length > 1) hp1
                · exact absurd (by omega : p.length = 0) hp0
  · intro args root e h
    unfold RepoAdd
    simp only [h]

/-- C4 (witness): the empty list and the dangling `-b` both satisfy the
invalid-argument characterization and fail, and the failing `Add` on the
empty list returns the error without a git invocation. -/
theorem buildAddArgs_invalid_iff_witness :
    (∃ e, buildAddArgs ["-b"] "/repo" = .error e) ∧
      RepoAdd "/repo" [] = .error "requires a branch name" :=
  ⟨(buildAddArgs_invalid_iff.1 ["-b"] "/repo").mpr (by decide),
    buildAddArgs_invalid_iff.2 [] "/repo" "requires a branch name" rfl⟩

/-! ## The hook generator and installer (`hook.go`) -/

/-- The single-quote character, named so that generated strings can be
assembled without quote literals inside string literals. -/
def squoteChar : Char := '\''

/-- Model of Go `strings.Replace`/`ReplaceAll` for a non-empty pattern:
scan left to right, replacing each non-overlapping occurrence of the
pattern. The empty-pattern behaviour of Go (interleaving) is not modelled;
the only call site uses the single-character pattern. -/
def replaceAllChars (old new : List Char) : List Char → List Char
  | [] => []
  | c :: rest =>
    if hOld : old.isEmpty then c :: rest
    else if h : leadsWith old (c :: rest) then
      new ++ replaceAllChars old new ((c :: rest).drop old.length)
    else c :: replaceAllChars old new rest
termination_by l => l.length
decreasing_by
  · have h1 := leadsWith_le_length old (c :: rest) h
    have h2 : 0 < old.length := by
      cases old with
      | nil => exact absurd rfl hOld
      | cons a as => simp
    simp only [List.length_drop, List.length_cons]
    omega
  · simp

/-- Model of `shellEscape`: `strings.ReplaceAll(s, sq, sq backslash sq sq)`
where sq is the single-quote character. -/
def shellEscape (s : String) : String :=
  String.mk (replaceAllChars [squoteChar]
    [squoteChar, '\\', squoteChar, squoteChar] s.data)

/-- The specified behaviour of the escape: each single quote becomes the
four-character close-escape-reopen sequence and every other character is
unchanged. -/
def escSpec : List Char → List Char
  | [] => []
  | c :: rest =>
    (if c = squoteChar then [squoteChar, '\\', squoteChar, squoteChar] else [c]) ++
      escSpec rest

theorem replaceAll_single_quote (l : List Char) :
    replaceAllChars [squoteChar] [squoteChar, '\\', squoteChar, squoteChar] l =
      escSpec l := by
  induction l with
  | nil => simp only [replaceAllChars.eq_def, escSpec]
  | cons c rest ih =>
    by_cases hc : c = squoteChar
    · subst hc
      rw [replaceAllChars.eq_def]
      have hl : leadsWith [squoteChar] (squoteChar :: rest) = true := by
        simp [leadsWith]
      simp [hl, escSpec, ih]
    · rw [replaceAllChars.eq_def]
      have hcs : ¬(squoteChar = c) := fun hh => hc hh.symm
      have hl : leadsWith [squoteChar] (c :: rest) = false := by
        simp [leadsWith, hcs]
      simp [hl, escSpec, hc, ih]

theorem escSpec_id (l : List Char) (h : l.all (fun c => !(c = squoteChar : Bool)) = true) :
    escSpec l = l := by
  induction l with
  | nil => rfl
  | cons c rest ih =>
    simp only [List.all_cons, Bool.and_eq_true] at h
    have hc : ¬(c = squoteChar) := by simpa using h.1
    simp [escSpec, hc, ih h.2]

/-- C6: the shell-escape helper maps every string to the same string with
each single-quote character replaced by the four-character sequence
quote-backslash-quote-quote, and changes nothing else; in particular a
string with no single quote is returned unchanged. -/
theorem shellEscape_replaces_quotes :
    (∀ s, shellEscape s = String.mk (escSpec s.data)) ∧
    (∀ s, s.data.all (fun c => !(c = squoteChar : Bool)) = true → shellEscape s = s) := by
  constructor
  · intro s
    unfold shellEscape
    rw [replaceAll_single_quote]
  · intro s h
    unfold shellEscape
    rw [replaceAll_single_quote, escSpec_id s.data h, stringMk_data]

/-- C6 (witness): a quote-free name is unchanged and a name with one quote
gains the escape sequence. -/
theorem shellEscape_replaces_quotes_witness :
    shellEscape ".env" = ".env" :=
  shellEscape_replaces_quotes.2 ".env" (by decide)

/-- Substring test on strings. -/
def hasSubStr (pat s : String) : Bool :=
  hasSub pat.data s.data

theorem hasSubStr_sandwich (a mid b : String) :
    hasSubStr mid (a ++ mid ++ b) = true := by
  unfold hasSubStr
  have h : (a ++ mid ++ b).data = a.data ++ (mid.data ++ b.data) := by
    rw [stringData_append, stringData_append, List.append_assoc]
  rw [h]
  exact hasSub_middle mid.data a.data b.data

theorem hasSubStr_tail (pat a b : String) (h : hasSubStr pat b = true) :
    hasSubStr pat (a ++ b) = true := by
  unfold hasSubStr at h ⊢
  rw [stringData_append]
  exact hasSub_of_append_right pat.data a.data b.data h

/-- Model of `HookData` (hook.go). -/
structure HookData where
  basePath : String
  copyFiles : List String
  versionManager : String
  packageManager : String

/-- Model of `HookData.BuildCommand`. -/
def BuildCommand (d : HookData) : String :=
  if d.packageManager = "yarn" then "yarn build"
  else if d.packageManager = "" then ""
  else d.packageManager ++ " run build"

/-- A single-quote as a string value. -/
def squoteStr : String := String.mk [squoteChar]

/-- A value wrapped in single quotes with its interior shell-escaped, as the
template does for every interpolated value. -/
def quoteArg (s : String) : String := squoteStr ++ shellEscape s ++ squoteStr

/-- Modelled from the spec: the embedded hook template
`templates/post-checkout.sh.tmpl` is compiled into the binary and is not
under the available sources; per spec sections 4.4 and 6 the rendered
script is a fixed bash skeleton (shebang, a guard so the setup runs once
per branch checkout, one copy line per configured file with single-quoted
shell-escaped interpolations, optional version-manager wrapping, and the
package-manager install and derived build commands). -/
def Generate (data : HookData) : String :=
  "#!/bin/bash\n\n" ++
  "if [[ \"$3\" == \"1\" ]]; then\n" ++
  String.join (data.copyFiles.map (fun f =>
    "  cp " ++ quoteArg (data.basePath ++ "/" ++ f) ++ " " ++ quoteArg ("./" ++ f) ++ "\n")) ++
  (if data.versionManager = "asdf" then "  . \"$HOME/.asdf/asdf.sh\"\n" else "") ++
  (if data.packageManager = "" then ""
   else if data.versionManager = "mise" then
    "  mise exec -- " ++ data.packageManager ++ " install\n" ++
      "  mise exec -- " ++ BuildCommand data ++ "\n"
   else "  " ++ data.packageManager ++ " install\n" ++ "  " ++ BuildCommand data ++ "\n") ++
  "fi\n"

/-- An explicit file-system state: file contents by path, plus the list of
directories that have been created. -/
structure FS where
  files : String → Option String
  dirs : List String

/-- Model of `Install` (hook.go): the hook path is the hooks directory
joined with `post-checkout`; without `force` an existing file at that path
aborts with an error before any generation, directory creation or write;
otherwise the hooks directory is created and the rendered script is
written, replacing any prior content. The pair returned is the resulting
file-system state and the error, the state being unchanged exactly when an
error is returned. -/
def Install (fs : FS) (hooksDir : String) (data : HookData) (force : Bool) :
    FS × Option String :=
  let hookPath := filepathJoin hooksDir "post-checkout"
  if !force && (fs.files hookPath).isSome then
    (fs, some ("hook already exists at " ++ hookPath ++ "; use --force to overwrite"))
  else
    ({ files := fun q => if q = hookPath then some (Generate data) else fs.files q,
       dirs := hooksDir :: fs.dirs }, none)

/-- C5: installing without force over an existing post-checkout hook fails
with an error that names the hook path and mentions the force option and
leaves the file-system state (hence the existing content) untouched; with
force the installation succeeds and the hook file afterwards holds exactly
the freshly rendered script, independent of any prior content, so text
present only in the old hook is absent. -/
theorem Install_force_contract :
    (∀ fs hooksDir data old,
      fs.files (filepathJoin hooksDir "post-checkout") = some old →
      (Install fs hooksDir data false).1 = fs ∧
      ∃ msg, (Install fs hooksDir data false).2 = some msg ∧
        hasSubStr (filepathJoin hooksDir "post-checkout") msg = true ∧
        hasSubStr "--force" msg = true) ∧
    (∀ fs hooksDir data,
      (Install fs hooksDir data true).1.files (filepathJoin hooksDir "post-checkout") =
        some (Generate data) ∧
      (Install fs hooksDir data true).2 = none) := by
  constructor
  · intro fs hooksDir data old hexist
    have hcond : (!false && (fs.files (filepathJoin hooksDir "post-checkout")).isSome) = true := by
      rw [hexist]
      rfl
    unfold Install
    rw [if_pos hcond]
    refine ⟨rfl, "hook already exists at " ++ filepathJoin hooksDir "post-checkout" ++
      "; use --force to overwrite", rfl, ?_, ?_⟩
    · exact hasSubStr_sandwich "hook already exists at "
        (filepathJoin hooksDir "post-checkout") "; use --force to overwrite"
    · exact hasSubStr_tail "--force"
        ("hook already exists at " ++ filepathJoin hooksDir "post-checkout")
        "; use --force to overwrite" (by decide)
  · intro fs hooksDir data
    have hcond : (!true && (fs.files (filepathJoin hooksDir "post-checkout")).isSome) = false := by
      rfl
    unfold Install
    rw [if_neg (by simp [hcond])]
    exact ⟨by simp, rfl⟩

/-- A concrete file-system state holding an existing hook with an old
marker. -/
def hookFS : FS where
  files := fun q => if q = "/hooks/post-checkout" then some "old hook OLDMARK" else none
  dirs := []

/-- C5 (witness): the contract instantiated on a concrete state with an
existing hook. -/
theorem Install_force_contract_witness :
    (Install hookFS "/hooks" ⟨"/repo", [], "", ""⟩ false).1 = hookFS ∧
    ∃ msg, (Install hookFS "/hooks" ⟨"/repo", [], "", ""⟩ false).2 = some msg ∧
      hasSubStr (filepathJoin "/hooks" "post-checkout") msg = true ∧
      hasSubStr "--force" msg = true :=
  Install_force_contract.1 hookFS "/hooks" ⟨"/repo", [], "", ""⟩ "old hook OLDMARK" (by decide)

/-! ## The configuration store (`config.go`) -/

/-- JSON values at the level needed by the configuration document. -/
inductive Jval where
  | null : Jval
  | str (s : String) : Jval
  | arr (items : List Jval) : Jval
  | obj (fields : List (String × Jval)) : Jval

/-- First-match lookup in a JSON object. -/
def jLookup : List (String × Jval) → String → Option Jval
  | [], _ => none
  | (k, v) :: rest, key => if k = key then some v else jLookup rest key

/-- Decode a JSON array of strings. -/
def decodeStrList : List Jval → Except String (List String)
  | [] => .ok []
  | .str s :: rest =>
    match decodeStrList rest with
    | .error e => .error e
    | .ok l => .ok (s :: l)
  | _ :: _ => .error "cannot unmarshal array element into string"

/-- Model of `Config` (config.go). `CopyFiles` is a Lean list; the Go
distinction between a nil slice and an empty non-nil slice is conflated,
which is faithful for every observation the code makes (`len` and
marshalling of the default-elided value). -/
structure Config where
  mainBranch : String
  copyFiles : List String
deriving DecidableEq

/-- Model of `DefaultConfig`. -/
def DefaultConfig : Config := ⟨"main", []⟩

/-- Model of `Config.IsDefault`. -/
def IsDefault (c : Config) : Bool :=
  c.mainBranch == "main" && c.copyFiles.length == 0

/-- Value-level model of the `encoding/json` marshalling of `Config`: both
fields are emitted (no omitempty tags); a nil `copy_files` slice marshals
to JSON null. The textual layer (pretty-printing, field order in bytes,
trailing newline) is elided: the store is modelled up to the JSON value
written. -/
def marshalConfig (c : Config) : Jval :=
  .obj [("main_branch", .str c.mainBranch),
    ("copy_files", if c.copyFiles.isEmpty then Jval.null else .arr (c.copyFiles.map .str))]

/-- Decoding of the `main_branch` field: an omitted or null field leaves
the zero value (the empty string), as `encoding/json` does. -/
def decodeMainBranch (kvs : List (String × Jval)) : Except String String :=
  match jLookup kvs "main_branch" with
  | none => .ok ""
  | some .null => .ok ""
  | some (.str s) => .ok s
  | some _ => .error "cannot unmarshal field main_branch"

/-- Decoding of the `copy_files` field: an omitted or null field leaves the
zero value (the empty list). -/
def decodeCopyFiles (kvs : List (String × Jval)) : Except String (List String) :=
  match jLookup kvs "copy_files" with
  | none => .ok []
  | some .null => .ok []
  | some (.arr items) => decodeStrList items
  | some _ => .error "cannot unmarshal field copy_files"

/-- Decoding of an object into `Config`: the two fields are decoded, the
first error aborts. -/
def unmarshalObj (kvs : List (String × Jval)) : Except String Config :=
  match decodeMainBranch kvs, decodeCopyFiles kvs with
  | .error e, _ => .error e
  | _, .error e => .error e
  | .ok mb, .ok cf => .ok ⟨mb, cf⟩

/-- Value-level model of `json.Unmarshal` into `Config`: missing fields
keep their zero values; mismatched types are errors. -/
def unmarshalConfig : Jval → Except String Config
  | .obj kvs => unmarshalObj kvs
  | .null => .ok ⟨"", []⟩
  | _ => .error "cannot unmarshal into Config"

/-- Model of `Load` (config.go): the argument is the state of the
`.gwt.json` file in the repository root (`none` when absent). A missing
file yields the defaults; otherwise the parsed value is returned with no
default substitution. -/
def Load (file : Option Jval) : Except String Config :=
  match file with
  | none => .ok DefaultConfig
  | some j => unmarshalConfig j

/-- Model of `Save` (config.go): the result is the state of the
`.gwt.json` file after saving. A default configuration deletes the file
(absence of a prior file is not an error, and the result does not depend
on the prior state); anything else writes the marshalled value wholesale. -/
def Save (cfg : Config) : Option Jval :=
  if IsDefault cfg then none else some (marshalConfig cfg)

theorem decodeStrList_map (l : List String) : decodeStrList (l.map .str) = .ok l := by
  induction l with
  | nil => rfl
  | cons s rest ih => simp [decodeStrList, ih]

/-- C7: saving a non-default configuration and loading it back returns the
same configuration, and saving the default configuration leaves no
`.gwt.json` file regardless of the prior state. -/
theorem config_roundtrip_elision :
    (∀ cfg, IsDefault cfg = false → Load (some (marshalConfig cfg)) = .ok cfg ∧
      Save cfg = some (marshalConfig cfg)) ∧
    Save DefaultConfig = none := by
  constructor
  · intro cfg hnd
    constructor
    · show unmarshalConfig (marshalConfig cfg) = .ok cfg
      cases cfg with
      | mk mb cf =>
        have hmb : decodeMainBranch [("main_branch", .str mb),
            ("copy_files", if cf.isEmpty then Jval.null else .arr (cf.map .str))] = .ok mb := by
          simp [decodeMainBranch, jLookup]
        have hcf : decodeCopyFiles [("main_branch", .str mb),
            ("copy_files", if cf.isEmpty then Jval.null else .arr (cf.map .str))] = .ok cf := by
          by_cases hemp : cf.isEmpty
          · have hcfnil : cf = [] := by
              cases cf with
              | nil => rfl
              | cons a as => simp at hemp
            subst hcfnil
            simp [decodeCopyFiles, jLookup]
          · simp only [decodeCopyFiles, jLookup]
            rw [if_neg hemp]
            simp [decodeStrList_map]
        show unmarshalObj [("main_branch", .str mb),
          ("copy_files", if cf.isEmpty then Jval.null else .arr (cf.map .str))] = .ok ⟨mb, cf⟩
        unfold unmarshalObj
        rw [hmb, hcf]
    · unfold Save
      rw [if_neg (by simp [hnd])]
  · rfl

/-- C7 (witness): round trip of a concrete non-default configuration. -/
theorem config_roundtrip_elision_witness :
    Load (some (marshalConfig ⟨"develop", [".env"]⟩)) = .ok ⟨"develop", [".env"]⟩ ∧
      Save ⟨"develop", [".env"]⟩ = some (marshalConfig ⟨"develop", [".env"]⟩) :=
  config_roundtrip_elision.1 ⟨"develop", [".env"]⟩ rfl

/-- C10: when the configuration file exists but omits a field, `Load`
returns the zero value for the omitted field — a file holding only
`copy_files` loads with an empty `MainBranch`, not the documented default
`main`; the defaults are substituted only when the file is entirely
absent. -/
theorem Load_zero_value_on_omitted :
    Load (some (.obj [("copy_files", .arr [.str ".env"])])) = .ok ⟨"", [".env"]⟩ ∧
    (⟨"", [".env"]⟩ : Config).mainBranch ≠ DefaultConfig.mainBranch ∧
    Load none = .ok DefaultConfig ∧
    (∀ kvs c, jLookup kvs "main_branch" = none →
      unmarshalConfig (.obj kvs) = .ok c → c.mainBranch = "") := by
  refine ⟨rfl, by decide, rfl, ?_⟩
  intro kvs c hnone hok
  have hmb : decodeMainBranch kvs = .ok "" := by
    unfold decodeMainBranch
    rw [hnone]
  have hok1 : unmarshalObj kvs = .ok c := hok
  unfold unmarshalObj at hok1
  rw [hmb] at hok1
  cases hcf : decodeCopyFiles kvs with
  | error e =>
    rw [hcf] at hok1
    cases hok1
  | ok cf =>
    rw [hcf] at hok1
    have hok2 : Except.ok (⟨"", cf⟩ : Config) = .ok c := hok1
    injection hok2 with h
    rw [← h]

/-- C10 (witness): the general zero-value statement instantiated on a
concrete object that omits `main_branch`. -/
theorem Load_zero_value_on_omitted_witness :
    (⟨"", []⟩ : Config).mainBranch = "" :=
  Load_zero_value_on_omitted.2.2.2 [("copy_files", Jval.null)] ⟨"", []⟩ rfl rfl

/-! ## Copy-file traversal guard and exit-code mapping (`git.go`) -/

/-- The input/output operations `CopyFileToWorktree` can perform after its
path checks. -/
inductive FileOp where
  | read (p : String)
  | mkdirAll (p : String)
  | write (p : String)

/-- The escape condition of `CopyFileToWorktree`, exactly as coded: the
resolved absolute path neither starts with the directory followed by the
separator nor equals the directory. -/
def escapesDir (dir p : String) : Bool :=
  !(leadsWith (dir ++ "/").data p.data) && !(p == dir)

/-- Model of `CopyFileToWorktree` (git.go): source and destination paths
are the directories joined with the filename; each is made absolute and
checked against its directory before any file operation. The first
component of the result is the sequence of file operations performed (the
open/stat of the source, the recursive creation of the destination parent
directory, and the write of the destination), empty on a rejected path;
the second is the error. Message rendering models the `%q` verb as plain
double quotes. -/
def CopyFileToWorktree (cwd srcDir dstDir filename : String) :
    List FileOp × Option String :=
  let srcPath := filepathJoin srcDir filename
  let dstPath := filepathJoin dstDir filename
  let srcAbs := filepathAbs cwd srcPath
  if escapesDir srcDir srcAbs then
    ([], some ("path \"" ++ filename ++ "\" escapes source directory"))
  else
    let dstAbs := filepathAbs cwd dstPath
    if escapesDir dstDir dstAbs then
      ([], some ("path \"" ++ filename ++ "\" escapes destination directory"))
    else
      ([.read srcPath, .mkdirAll (filepathDir dstPath), .write dstPath], none)

/-- C8: whenever the resolved source path escapes the source directory or
the resolved destination path escapes the destination directory,
`CopyFileToWorktree` performs no file operation at all and returns an
error that names the filename and describes the escape. -/
theorem copyFile_traversal_guard :
    ∀ cwd srcDir dstDir filename,
      (escapesDir srcDir (filepathAbs cwd (filepathJoin srcDir filename)) = true ∨
        escapesDir dstDir (filepathAbs cwd (filepathJoin dstDir filename)) = true) →
      (CopyFileToWorktree cwd srcDir dstDir filename).1 = [] ∧
      ∃ e, (CopyFileToWorktree cwd srcDir dstDir filename).2 = some e ∧
        hasSubStr filename e = true ∧ hasSubStr "escapes" e = true := by
  intro cwd srcDir dstDir filename h
  unfold CopyFileToWorktree
  by_cases h1 : escapesDir srcDir (filepathAbs cwd (filepathJoin srcDir filename)) = true
  · rw [if_pos h1]
    refine ⟨rfl, "path \"" ++ filename ++ "\" escapes source directory", rfl, ?_, ?_⟩
    · exact hasSubStr_sandwich "path \"" filename "\" escapes source directory"
    · exact hasSubStr_tail "escapes" ("path \"" ++ filename)
        "\" escapes source directory" (by decide)
  · have h2 : escapesDir dstDir (filepathAbs cwd (filepathJoin dstDir filename)) = true :=
      h.resolve_left h1
    rw [if_neg h1, if_pos h2]
    refine ⟨rfl, "path \"" ++ filename ++ "\" escapes destination directory", rfl, ?_, ?_⟩
    · exact hasSubStr_sandwich "path \"" filename "\" escapes destination directory"
    · exact hasSubStr_tail "escapes" ("path \"" ++ filename)
        "\" escapes destination directory" (by decide)

/-- C8 (witness): a traversal attempt with `../secret` from `/src` is
rejected with no file operation. -/
theorem copyFile_traversal_guard_witness :
    (CopyFileToWorktree "/w" "/src" "/dst" "../secret").1 = [] ∧
    ∃ e, (CopyFileToWorktree "/w" "/src" "/dst" "../secret").2 = some e ∧
      hasSubStr "../secret" e = true ∧ hasSubStr "escapes" e = true :=
  copyFile_traversal_guard "/w" "/src" "/dst" "../secret" (Or.inl (by decide))

/-- Model of the Go error values `ExitCode` distinguishes: a process-exit
error carrying the exit code of the child, any other error, and
`fmt.Errorf` wrapping with the `%w` verb. -/
inductive GoErr where
  | exitErr (code : Int) : GoErr
  | plain (msg : String) : GoErr
  | wrap (msg : String) (inner : GoErr) : GoErr

/-- Model of `errors.As(err, &exitErr)` for the `exec.ExitError` target:
walks the wrap chain and yields the first embedded exit code. -/
def asExitErr : GoErr → Option Int
  | .exitErr code => some code
  | .plain _ => none
  | .wrap _ inner => asExitErr inner

/-- Model of `ExitCode` (git.go, current revision): a nil error maps to 0,
an error that is or wraps a process-exit error maps to the embedded exit
code, and every other error maps to 1. -/
def ExitCode (err : Option GoErr) : Int :=
  match err with
  | none => 0
  | some e =>
    match asExitErr e with
    | some code => code
    | none => 1

/-- C9: the exit-code mapping returns 0 on a nil error, the embedded exit
code when the error is or wraps a process-exit error, and 1 for every
other error. -/
theorem exitCode_contract :
    ExitCode none = 0 ∧
    (∀ e code, asExitErr e = some code → ExitCode (some e) = code) ∧
    (∀ e, asExitErr e = none → ExitCode (some e) = 1) := by
  refine ⟨rfl, ?_, ?_⟩
  · intro e code h
    show ((match asExitErr e with
      | some c => c
      | none => 1) : Int) = code
    rw [h]
  · intro e h
    show ((match asExitErr e with
      | some c => c
      | none => 1) : Int) = 1
    rw [h]

/-- C9 (witness): a wrapped process-exit error with code 2 maps to 2, and
a plain error maps to 1. -/
theorem exitCode_contract_witness :
    ExitCode (some (.wrap "git worktree add failed" (.exitErr 2))) = 2 ∧
      ExitCode (some (.plain "not in a git repository")) = 1 :=
  ⟨exitCode_contract.2.1 (.wrap "git worktree add failed" (.exitErr 2)) 2 rfl,
    exitCode_contract.2.2 (.plain "not in a git repository") rfl⟩
